import Mathlib

/-!
Verification of the zk-dcap-verifier specification against the source.

The development shallowly embeds the data transformations of
`crates/halo2-secp256r1-circuit/src/circuit.rs`, `crates/p256-ecdsa/src/lib.rs`,
`crates/p256-ecdsa/src/base.rs` and `circuits/src/base64.rs`.  Machine bytes are
`Nat` below 256, field elements are `Nat` representatives below the respective
modulus, and fallible Rust functions return `Option` or an explicit outcome type
that distinguishes `Ok`, `Err` and panics.
-/

namespace ZkDcap

/-! ## secp256r1 curve and field parameters (halo2curves `secp256r1`) -/

/-- Base field modulus `p` of secp256r1. -/
def pMod : Nat :=
  115792089210356248762697446949407573530086143415290314195533631308867097853951

/-- Scalar field modulus `n` (group order) of secp256r1. -/
def nOrd : Nat :=
  115792089210356248762697446949407573529996955224135760342422259061068512044369

/-- BN254 scalar field modulus, the native proving field `Fr`. -/
def frMod : Nat :=
  21888242871839275222246405745257275088548364400416034343698204186575808495617

/-- Curve coefficient `a = p - 3` of secp256r1. -/
def aCoef : Nat := pMod - 3

/-- Generator x-coordinate of secp256r1. -/
def gX : Nat :=
  48439561293906451759052585252797914202762949526041747995844080717082404635286

/-- Generator y-coordinate of secp256r1. -/
def gY : Nat :=
  36134250956749795798585127919587881956611106672985015071877198253568414405109

/-! ## Modular arithmetic helpers -/

/-- Fuelled binary modular exponentiation; the fuel bounds the number of
squarings, 512 covers every exponent below `2 ^ 512`. -/
def powModAux : Nat → Nat → Nat → Nat → Nat
  | 0, _, _, m => 1 % m
  | fuel + 1, b, e, m =>
    if e = 0 then 1 % m
    else
      let h := powModAux fuel (b * b % m) (e / 2) m
      if e % 2 = 1 then b * h % m else h

/-- Modular exponentiation `b ^ e % m`. -/
def powMod (m b e : Nat) : Nat := powModAux 512 (b % m) e m

/-- Modular inverse by Fermat's little theorem (valid for prime `m` and
`a` coprime to `m`; used only on such inputs). -/
def invMod (m a : Nat) : Nat := powMod m a (m - 2)

/-! ## Affine secp256r1 point arithmetic -/

/-- A point of secp256r1 in affine coordinates, or the point at infinity. -/
inductive Pt where
  | inf : Pt
  | aff (x y : Nat) : Pt
  deriving DecidableEq, Repr

/-- Affine point addition on secp256r1 (with the standard doubling branch). -/
def pAdd : Pt → Pt → Pt
  | Pt.inf, q => q
  | p, Pt.inf => p
  | Pt.aff x1 y1, Pt.aff x2 y2 =>
    if x1 = x2 then
      if (y1 + y2) % pMod = 0 then Pt.inf
      else
        let lam := (3 * x1 * x1 + aCoef) % pMod * invMod pMod (2 * y1 % pMod) % pMod
        let x3 := (lam * lam + 2 * pMod * pMod - x1 - x2) % pMod
        let y3 := (lam * (x1 + pMod - x3) % pMod + pMod * pMod - y1) % pMod
        Pt.aff x3 y3
    else
      let lam := (y2 + pMod - y1) % pMod * invMod pMod ((x2 + pMod - x1) % pMod) % pMod
      let x3 := (lam * lam + 2 * pMod * pMod - x1 - x2) % pMod
      let y3 := (lam * (x1 + pMod - x3) % pMod + pMod * pMod - y1) % pMod
      Pt.aff x3 y3

/-- Fuelled double-and-add scalar multiplication. -/
def smulAux : Nat → Nat → Pt → Pt
  | 0, _, _ => Pt.inf
  | fuel + 1, k, p =>
    if k = 0 then Pt.inf
    else
      let h := smulAux fuel (k / 2) p
      let d := pAdd h h
      if k % 2 = 1 then pAdd d p else d

/-- Scalar multiplication `k • p` on secp256r1. -/
def smul (k : Nat) (p : Pt) : Pt := smulAux 512 k p

/-- The secp256r1 generator. -/
def genPt : Pt := Pt.aff gX gY

/-- Modelled from the spec: the in-circuit signature check performed by the
external `halo2_ecc::ecc::ecdsa::ecdsa_verify_no_pubkey_check` used by both
circuits, which the spec describes as the standard ECDSA verification equation
`r = x_mod_n((m * s^-1) * G + (r * s^-1) * pubkey)` computed by in-circuit
scalar multiplication, with no on-curve check of the public key. -/
def ecdsaVerify (m r s : Nat) (pk : Pt) : Bool :=
  let sInv := invMod nOrd (s % nOrd)
  let u1 := m * sInv % nOrd
  let u2 := r * sInv % nOrd
  match pAdd (smul u1 genPt) (smul u2 pk) with
  | Pt.inf => false
  | Pt.aff x _ => x % nOrd == r

/-! ## Instance codec (`crates/halo2-secp256r1-circuit/src/circuit.rs`)

The native field is BN254 `Fr` with `F::NUM_BITS = 254`, so the byte capacity
`fr_bytes = (F::NUM_BITS / 8) = 31`.  Field elements are represented by their
canonical `Nat` representative below `frMod`. -/

/-- Byte capacity of the native field, `(F::NUM_BITS / 8) as usize` for BN254. -/
def frBytes : Nat := 254 / 8

/-- Value of a little-endian byte string. -/
def bytesToNatLE : List Nat → Nat
  | [] => 0
  | b :: bs => b + 256 * bytesToNatLE bs

/-- `F::from_bytes_le`: interpret little-endian bytes as a field element. -/
def fromBytesLE (bs : List Nat) : Nat := bytesToNatLE bs % frMod

/-- Canonical little-endian byte expansion of width `w` (`F::to_bytes_le`
produces the 32-byte expansion of the canonical representative). -/
def toBytesLE : Nat → Nat → List Nat
  | 0, _ => []
  | w + 1, v => v % 256 :: toBytesLE w (v / 256)

/-- The lowest 64 bits of a field element's representative (`get_lower_64`). -/
def getLower64 (v : Nat) : Nat := v % 2 ^ 64

/-- The chunk loop of `pack`: `reader.read(&mut tmp)` copies
`min(fr_bytes, remaining)` bytes into the front of `tmp` and leaves the rest of
`tmp` untouched (the buffer is never re-zeroed), then the whole 31-byte buffer
is turned into a field element; the loop stops when the reader is exhausted. -/
def packChunks (buf : List Nat) : List Nat → List Nat
  | [] => []
  | b :: rest =>
    fromBytesLE ((b :: rest).take frBytes ++ buf.drop (min frBytes (b :: rest).length)) ::
      packChunks ((b :: rest).take frBytes ++ buf.drop (min frBytes (b :: rest).length))
        ((b :: rest).drop frBytes)
  termination_by msg => msg.length
  decreasing_by simp [frBytes]; omega

/-- `pack` from `circuit.rs`: the byte length (cast `usize -> u64`, then into
`F`) followed by the 31-byte little-endian chunks of the message, the buffer
starting out zeroed. -/
def pack (msg : List Nat) : List Nat :=
  msg.length % 2 ^ 64 % frMod :: packChunks (List.replicate frBytes 0) msg

/-- `cal_row_size` from `circuit.rs`: ceiling division. -/
def cal_row_size (total single : Nat) : Nat :=
  if total % single = 0 then total / single else total / single + 1

/-- The read loop of `read_unpack`: for each of `count` rows starting at `pos`,
append the first `fr_bytes` bytes of the canonical 32-byte little-endian
expansion of the instance value; a missing instance row is an `Error`. -/
def readChunkBytes (col : List Nat) : Nat → Nat → Option (List Nat)
  | _, 0 => some []
  | pos, count + 1 => do
    let f ← col[pos]?
    let rest ← readChunkBytes col (pos + 1) count
    return (toBytesLE 32 f).take frBytes ++ rest

/-- `read_unpack` from `circuit.rs`: re-read the length element at `start`,
derive the chunk count by ceiling division over `fr_bytes`, reconstitute the
byte stream and truncate at the declared length. -/
def read_unpack (col : List Nat) (start : Nat) : Option (List Nat) := do
  let f0 ← col[start]?
  let msgLen := getLower64 f0
  let size := cal_row_size msgLen frBytes
  let bytes ← readChunkBytes col (start + 1) size
  return bytes.take msgLen

/-! ### Byte-expansion lemmas -/

theorem bytesToNatLE_lt (bs : List Nat) (h : ∀ b ∈ bs, b < 256) :
    bytesToNatLE bs < 256 ^ bs.length := by
  induction bs with
  | nil => simp [bytesToNatLE]
  | cons b bs ih =>
    have hb : b < 256 := h b (by simp)
    have ht : bytesToNatLE bs < 256 ^ bs.length := ih fun x hx => h x (by simp [hx])
    simp only [bytesToNatLE, List.length_cons, pow_succ]
    omega

theorem toBytesLE_bytesToNatLE (bs : List Nat) (h : ∀ b ∈ bs, b < 256) :
    toBytesLE bs.length (bytesToNatLE bs) = bs := by
  induction bs with
  | nil => simp [toBytesLE]
  | cons b bs ih =>
    have hb : b < 256 := h b (by simp)
    have h1 : (b + 256 * bytesToNatLE bs) % 256 = b := by omega
    have h2 : (b + 256 * bytesToNatLE bs) / 256 = bytesToNatLE bs := by omega
    simp only [bytesToNatLE, List.length_cons, toBytesLE, h1, h2]
    simp [ih fun x hx => h x (by simp [hx])]

theorem toBytesLE_take (w k : Nat) : ∀ v, (toBytesLE (w + k) v).take w = toBytesLE w v := by
  induction w with
  | zero => simp [toBytesLE]
  | succ w ih =>
    intro v
    have : w + 1 + k = (w + k) + 1 := by omega
    simp [this, toBytesLE, ih]

/-- Reading back the first `frBytes` bytes of the 32-byte expansion of a packed
chunk recovers the 31-byte buffer it came from. -/
theorem toBytesLE_fromBytesLE (buf : List Nat) (hl : buf.length = frBytes)
    (hb : ∀ b ∈ buf, b < 256) :
    (toBytesLE 32 (fromBytesLE buf)).take frBytes = buf := by
  have hlt : bytesToNatLE buf < 256 ^ frBytes := hl ▸ bytesToNatLE_lt buf hb
  have hfr : (256 : Nat) ^ frBytes < frMod := by norm_num [frBytes, frMod]
  have hmod : fromBytesLE buf = bytesToNatLE buf := by
    simp only [fromBytesLE]
    exact Nat.mod_eq_of_lt (lt_trans hlt hfr)
  have h32 : (32 : Nat) = frBytes + 1 := by norm_num [frBytes]
  rw [hmod, h32, toBytesLE_take, ← hl, toBytesLE_bytesToNatLE buf hb]

/-! ### `packChunks` structure lemmas -/

theorem packChunks_length (buf msg : List Nat) :
    (packChunks buf msg).length = cal_row_size msg.length frBytes := by
  induction buf, msg using packChunks.induct with
  | case1 buf => simp [packChunks, cal_row_size, frBytes]
  | case2 buf b rest ih =>
    rw [packChunks, List.length_cons, ih]
    simp only [List.length_drop, List.length_cons]
    simp only [cal_row_size, frBytes]
    norm_num
    split_ifs <;> omega

theorem packChunks_buf2_length (buf msg : List Nat) (hb : buf.length = frBytes) :
    (msg.take frBytes ++ buf.drop (min frBytes msg.length)).length = frBytes := by
  simp only [List.length_append, List.length_take, List.length_drop, hb]
  omega

/-- The concatenated chunk bytes of `packChunks`, truncated at the message
length, give back the message: the stale suffix of the read buffer only ever
occupies positions at or beyond the message length. -/
theorem packChunks_recover (buf msg : List Nat) (hb : buf.length = frBytes)
    (hbB : ∀ b ∈ buf, b < 256) (hmB : ∀ b ∈ msg, b < 256) :
    (((packChunks buf msg).map fun f => (toBytesLE 32 f).take frBytes).flatten).take msg.length
      = msg := by
  induction buf, msg using packChunks.induct with
  | case1 buf => simp [packChunks]
  | case2 buf b rest ih =>
    have hb2 : ((b :: rest).take frBytes ++ buf.drop (min frBytes (b :: rest).length)).length
        = frBytes := packChunks_buf2_length buf (b :: rest) hb
    have hb2B : ∀ x ∈ (b :: rest).take frBytes ++ buf.drop (min frBytes (b :: rest).length),
        x < 256 := by
      intro x hx
      rcases List.mem_append.mp hx with h | h
      · exact hmB x (List.mem_of_mem_take h)
      · exact hbB x (List.mem_of_mem_drop h)
    rw [packChunks]
    simp only [List.map_cons, List.flatten_cons]
    rw [toBytesLE_fromBytesLE _ hb2 hb2B]
    by_cases hc : (b :: rest).length ≤ frBytes
    · have hdrop : (b :: rest).drop frBytes = [] := List.drop_eq_nil_of_le hc
      have hmin : min frBytes (b :: rest).length = (b :: rest).length := by omega
      have htake : (b :: rest).take frBytes = b :: rest := List.take_of_length_le hc
      rw [hdrop]
      simp only [packChunks, List.map_nil, List.flatten_nil, List.append_nil]
      rw [htake, hmin]
      exact List.take_left (b :: rest) _
    · push_neg at hc
      have hmin : min frBytes (b :: rest).length = frBytes := by omega
      have hdropped : buf.drop frBytes = [] := List.drop_eq_nil_of_le (le_of_eq hb)
      rw [hmin, hdropped, List.append_nil] at ih hb2 hb2B ⊢
      have hdropB : ∀ x ∈ (b :: rest).drop frBytes, x < 256 := fun x hx =>
        hmB x (List.mem_of_mem_drop hx)
      have ihx := ih hb2 hb2B hdropB
      simp only [List.length_drop] at ihx
      rw [List.take_append_eq_append_take]
      have hlen2 : ((b :: rest).take frBytes).length = frBytes := by
        simp only [List.length_take]
        omega
      rw [hlen2, ihx, List.take_of_length_le (by omega : ((b :: rest).take frBytes).length ≤ (b :: rest).length)]
      exact List.take_append_drop frBytes (b :: rest)

/-! ### `read_unpack` indexing lemma -/

theorem readChunkBytes_spec :
    ∀ (cs pre rest : List Nat),
      readChunkBytes (pre ++ (cs ++ rest)) pre.length cs.length
        = some ((cs.map fun f => (toBytesLE 32 f).take frBytes).flatten) := by
  intro cs
  induction cs with
  | nil => intro pre rest; simp [readChunkBytes]
  | cons c cs ih =>
    intro pre rest
    have hget : (pre ++ (c :: (cs ++ rest)))[pre.length]? = some c := by
      rw [List.getElem?_append_right (le_refl _)]
      simp
    have hrec := ih (pre ++ [c]) rest
    simp only [List.length_append, List.length_cons, List.length_nil] at hrec
    simp only [List.append_assoc, List.cons_append, List.nil_append] at hrec
    simp only [List.cons_append, readChunkBytes, List.length_cons, hget, Option.bind_eq_bind,
      Option.some_bind]
    rw [Nat.add_comm pre.length 1, Nat.add_comm 1 pre.length] at hrec ⊢
    simp only [hrec, Option.some_bind, List.map_cons, List.flatten_cons]
    rfl

/-- The empty message packs to the single length-zero element. -/
theorem pack_nil : pack [] = [0] := by
  simp [pack, packChunks, frMod]

/-- Round-trip of the codec: reading back an instance column that holds
`pack m` at its start row reproduces `m`. -/
theorem read_unpack_pack (m pre rest : List Nat) (hB : ∀ b ∈ m, b < 256)
    (hlen : m.length < 2 ^ 64) :
    read_unpack (pre ++ (pack m ++ rest)) pre.length = some m := by
  have h64 : (2 : Nat) ^ 64 < frMod := by norm_num [frMod]
  have h1 : m.length % 2 ^ 64 = m.length := Nat.mod_eq_of_lt hlen
  have hhead : m.length % 2 ^ 64 % frMod = m.length := by
    rw [h1]
    exact Nat.mod_eq_of_lt (lt_trans hlen h64)
  have hget : (pre ++ (pack m ++ rest))[pre.length]? = some (m.length % 2 ^ 64 % frMod) := by
    rw [List.getElem?_append_right (le_refl _)]
    simp [pack]
  have hg : getLower64 (m.length % 2 ^ 64 % frMod) = m.length := by
    rw [getLower64, hhead, h1]
  have hsize : cal_row_size m.length frBytes = (packChunks (List.replicate frBytes 0) m).length :=
    (packChunks_length _ m).symm
  have hcol : pre ++ (pack m ++ rest)
      = (pre ++ [m.length % 2 ^ 64 % frMod]) ++ (packChunks (List.replicate frBytes 0) m ++ rest) := by
    simp [pack]
  have hread := readChunkBytes_spec (packChunks (List.replicate frBytes 0) m)
    (pre ++ [m.length % 2 ^ 64 % frMod]) rest
  simp only [List.length_append, List.length_cons, List.length_nil, Nat.add_zero,
    Nat.zero_add] at hread
  simp only [read_unpack, hget, Option.bind_eq_bind, Option.some_bind, hg, hsize]
  rw [hcol, hread, Option.some_bind]
  rw [packChunks_recover (List.replicate frBytes 0) m (by simp) (by simp) hB]
  rfl

/-- C2: for every byte string `m` (of Rust-representable length), reading back
the instance column that holds `pack m` at its start row reproduces `m`
exactly, and the empty message packs to the single length-zero element `[0]`
with no chunks and unpacks to the empty byte string. -/
theorem read_unpack_pack_roundtrip :
    (∀ (m pre rest : List Nat), (∀ b ∈ m, b < 256) → m.length < 2 ^ 64 →
        read_unpack (pre ++ (pack m ++ rest)) pre.length = some m) ∧
    pack [] = [0] ∧ read_unpack (pack []) 0 = some [] :=
  ⟨fun m pre rest hB hlen => read_unpack_pack m pre rest hB hlen, pack_nil,
    by rw [pack_nil]; decide⟩

/-- Witness for the round-trip theorem at a concrete two-chunk message placed
after a one-element column prefix. -/
theorem read_unpack_pack_roundtrip_witness :
    read_unpack ([3] ++ (pack (List.replicate 40 7) ++ [9])) 1 = some (List.replicate 40 7) :=
  read_unpack_pack_roundtrip.1 (List.replicate 40 7) [3] [9]
    (by intro b hb; rw [List.eq_of_mem_replicate hb]; norm_num) (by norm_num)

/-! ### The padding of the final chunk of `pack` -/

theorem packChunks_single (buf m : List Nat) (h0 : 0 < m.length) (h31 : m.length ≤ frBytes) :
    packChunks buf m = [fromBytesLE (m ++ buf.drop m.length)] := by
  match m, h0 with
  | b :: rest, _ =>
    rw [packChunks]
    have ht : (b :: rest).take frBytes = b :: rest := List.take_of_length_le h31
    have hmin : min frBytes (b :: rest).length = (b :: rest).length := by omega
    have hd : (b :: rest).drop frBytes = [] := List.drop_eq_nil_of_le h31
    rw [ht, hmin, hd, packChunks]

theorem packChunks_step (buf m : List Nat) (hb : buf.length = frBytes)
    (h31 : frBytes < m.length) :
    packChunks buf m = fromBytesLE (m.take frBytes) ::
      packChunks (m.take frBytes) (m.drop frBytes) := by
  have h0 : 0 < m.length := by omega
  match m, h0 with
  | b :: rest, _ =>
    rw [packChunks]
    have hmin : min frBytes (b :: rest).length = frBytes := by omega
    have hd : buf.drop frBytes = [] := List.drop_eq_nil_of_le (le_of_eq hb)
    rw [hmin, hd, List.append_nil]

theorem packChunks_ne_nil (buf m : List Nat) (h0 : 0 < m.length) :
    packChunks buf m ≠ [] := by
  match m, h0 with
  | b :: rest, _ =>
    rw [packChunks]
    simp

/-- The final chunk of `packChunks`: the remaining message bytes, completed by
the trailing bytes of the read buffer as it stood before the last read (the
initial buffer for a single-chunk message, the previous full chunk otherwise). -/
theorem packChunks_getLast_aux : ∀ (n : Nat) (m : List Nat), m.length = n →
    ∀ buf, buf.length = frBytes →
    0 < m.length → m.length % frBytes ≠ 0 →
    (packChunks buf m).getLast? = some (fromBytesLE
      (m.drop (frBytes * (m.length / frBytes)) ++
        (if m.length < frBytes then buf
          else (m.drop (frBytes * (m.length / frBytes - 1))).take frBytes).drop
            (m.length % frBytes))) := by
  intro n
  induction n using Nat.strong_induction_on with
  | _ n ih =>
    intro m hn buf hb h0 hmod
    have hfb : frBytes = 31 := rfl
    by_cases hc : m.length ≤ frBytes
    · have hlt : m.length < frBytes := by
        rcases lt_or_eq_of_le hc with h | h
        · exact h
        · exact absurd (h ▸ Nat.mod_self frBytes) hmod
      rw [packChunks_single buf m h0 hc]
      have hq : m.length / frBytes = 0 := Nat.div_eq_of_lt hlt
      have hr : m.length % frBytes = m.length := Nat.mod_eq_of_lt hlt
      simp only [List.getLast?_singleton, hq, Nat.mul_zero, List.drop_zero, if_pos hlt, hr]
    · push_neg at hc
      have hc31 : 31 < m.length := hfb ▸ hc
      rw [packChunks_step buf m hb hc]
      have hlen : (m.drop frBytes).length = m.length - frBytes := by simp
      have h0x : 0 < (m.drop frBytes).length := by
        rw [hlen, hfb]
        omega
      have hx := packChunks_ne_nil (m.take frBytes) (m.drop frBytes) h0x
      have hlast : (fromBytesLE (m.take frBytes) ::
          packChunks (m.take frBytes) (m.drop frBytes)).getLast?
          = (packChunks (m.take frBytes) (m.drop frBytes)).getLast? := by
        rcases hpc : packChunks (m.take frBytes) (m.drop frBytes) with _ | ⟨hd, tl⟩
        · exact absurd hpc hx
        · rw [List.getLast?_cons_cons]
      rw [hlast]
      have hmod31 : m.length % 31 ≠ 0 := hfb ▸ hmod
      have hmod2 : (m.drop frBytes).length % frBytes ≠ 0 := by
        rw [hlen, hfb]
        omega
      have htlen : (m.take frBytes).length = frBytes := by
        simp only [List.length_take]
        omega
      have hrec := ih (m.drop frBytes).length (by rw [hlen, hfb]; omega) (m.drop frBytes) rfl
        (m.take frBytes) htlen h0x hmod2
      rw [hrec]
      congr 1
      have hrr : (m.drop frBytes).length % frBytes = m.length % frBytes := by
        rw [hlen, hfb]
        omega
      have hdd : ∀ k, (m.drop frBytes).drop k = m.drop (frBytes + k) := by
        intro k
        simp [List.drop_drop, Nat.add_comm]
      by_cases h2 : (m.drop frBytes).length < frBytes
      · have h2x : m.length - 31 < 31 := by
          have h := h2
          rw [hlen, hfb] at h
          exact h
        have hq0 : (m.drop frBytes).length / frBytes = 0 := Nat.div_eq_of_lt h2
        have hq1 : m.length / frBytes = 1 := by
          rw [hfb]
          omega
        rw [if_pos h2, hq0, hq1, hrr, Nat.mul_zero, List.drop_zero, Nat.mul_one,
          if_neg (by rw [hfb]; omega : ¬ m.length < frBytes), List.drop_zero]
      · push_neg at h2
        have h2l : 31 ≤ m.length - 31 := by
          have h := h2
          rw [hlen, hfb] at h
          exact h
        rw [if_neg (not_lt.mpr h2), if_neg (by rw [hfb]; omega : ¬ m.length < frBytes)]
        rw [hdd, hdd, hrr]
        have e1 : frBytes + frBytes * ((m.drop frBytes).length / frBytes)
            = frBytes * (m.length / frBytes) := by
          rw [hlen, hfb]
          omega
        have e2 : frBytes + frBytes * ((m.drop frBytes).length / frBytes - 1)
            = frBytes * (m.length / frBytes - 1) := by
          rw [hlen, hfb]
          omega
        rw [e1, e2]

/-- The final chunk of `packChunks` in terms of the original message. -/
theorem packChunks_getLast (m buf : List Nat) (hb : buf.length = frBytes)
    (h0 : 0 < m.length) (hmod : m.length % frBytes ≠ 0) :
    (packChunks buf m).getLast? = some (fromBytesLE
      (m.drop (frBytes * (m.length / frBytes)) ++
        (if m.length < frBytes then buf
          else (m.drop (frBytes * (m.length / frBytes - 1))).take frBytes).drop
            (m.length % frBytes))) :=
  packChunks_getLast_aux m.length m rfl buf hb h0 hmod

/-- C7 amended: `pack` emits the byte length first and then the 31-byte
little-endian chunks; the final partial chunk is zero-padded only when the
message fits in a single chunk (the fresh buffer is zeroed); for longer
messages whose length is not a multiple of 31, the bytes of the final element
beyond the remaining message bytes are the trailing bytes of the previous
chunk, because the read buffer is reused without re-zeroing. -/
theorem pack_padding_amended :
    (∀ m : List Nat, 0 < m.length → m.length ≤ frBytes →
        pack m = [m.length % 2 ^ 64 % frMod,
          fromBytesLE (m ++ List.replicate (frBytes - m.length) 0)]) ∧
    (∀ m : List Nat, frBytes < m.length → m.length % frBytes ≠ 0 →
        (pack m).getLast? = some (fromBytesLE
          (m.drop (frBytes * (m.length / frBytes)) ++
            ((m.drop (frBytes * (m.length / frBytes - 1))).take frBytes).drop
              (m.length % frBytes)))) := by
  constructor
  · intro m h0 h31
    rw [pack, packChunks_single (List.replicate frBytes 0) m h0 h31, List.drop_replicate]
  · intro m h31 hmod
    have h0 : 0 < m.length := by omega
    rw [pack]
    have hne := packChunks_ne_nil (List.replicate frBytes 0) m h0
    have hlast : (m.length % 2 ^ 64 % frMod :: packChunks (List.replicate frBytes 0) m).getLast?
        = (packChunks (List.replicate frBytes 0) m).getLast? := by
      rcases hpc : packChunks (List.replicate frBytes 0) m with _ | ⟨hd, tl⟩
      · exact absurd hpc hne
      · rw [List.getLast?_cons_cons]
    rw [hlast, packChunks_getLast m (List.replicate frBytes 0) (by simp) h0 hmod,
      if_neg (by omega : ¬ m.length < frBytes)]


/-- Witness for the first clause of the amended padding theorem at a concrete
single-chunk message, and for the second clause at a concrete 32-byte message. -/
theorem pack_padding_amended_witness :
    pack [5] = [1, fromBytesLE ([5] ++ List.replicate 30 0)] ∧
    (pack (List.replicate 32 1)).getLast? = some (fromBytesLE
      ((List.replicate 32 1).drop 31 ++
        (((List.replicate 32 1).drop 0).take 31).drop 1)) := by
  constructor
  · have h := pack_padding_amended.1 [5] (by norm_num) (by norm_num [frBytes])
    simpa [frBytes, frMod] using h
  · have h := pack_padding_amended.2 (List.replicate 32 1) (by norm_num [frBytes])
      (by norm_num [frBytes])
    simpa [frBytes] using h

/-- C7 counterexample: the claim "the bytes of the last emitted element beyond
the remaining message bytes are all zero" fails at the 32-byte all-ones
message (length 32, not a multiple of 31): the final chunk is the stale buffer
`1 :: replicate 30 1` left over from the first chunk, and its byte at index 1,
which lies beyond the single remaining message byte, is 1, not 0. -/
theorem pack_stale_padding_counterexample :
    (pack (List.replicate 32 1)).getLast? = some (fromBytesLE (1 :: List.replicate 30 1)) ∧
    (toBytesLE 32 (fromBytesLE (1 :: List.replicate 30 1))).getD 1 0 = 1 ∧
    (32 : Nat) % frBytes ≠ 0 := by
  refine ⟨?_, by decide, by decide⟩
  rw [pack]
  have h0 : 0 < (List.replicate 32 1 : List Nat).length := by norm_num
  have hne := packChunks_ne_nil (List.replicate frBytes 0) (List.replicate 32 1) h0
  have hlast : ∀ (a : Nat) (l : List Nat), l ≠ [] → (a :: l).getLast? = l.getLast? := by
    intro a l hl
    rcases l with _ | ⟨hd, tl⟩
    · exact absurd rfl hl
    · rw [List.getLast?_cons_cons]
  rw [hlast _ _ hne,
    packChunks_step (List.replicate frBytes 0) (List.replicate 32 1) (by simp)
      (by norm_num [frBytes]),
    packChunks_single _ _ (by norm_num [frBytes]) (by norm_num [frBytes])]
  have h1 : (List.replicate 32 1 : List Nat).take frBytes = List.replicate 31 1 := by
    rw [List.take_replicate]
    norm_num [frBytes]
  have h2 : (List.replicate 32 1 : List Nat).drop frBytes = List.replicate 1 1 := by
    rw [List.drop_replicate]
    norm_num [frBytes]
  rw [h1, h2]
  have h3 : (List.replicate 1 1 : List Nat).length = 1 := by norm_num
  rw [h3]
  have h4 : (List.replicate 31 1 : List Nat).drop 1 = List.replicate 30 1 := by
    rw [List.drop_replicate]
  rw [h4]
  simp [List.replicate_succ]

/-! ## Batched circuit front-end (`crates/halo2-secp256r1-circuit/src/circuit.rs`) -/

/-- Value of a big-endian byte string (the source reverses the bytes and then
uses `from_bytes_le`). -/
def bytesToNatBE (bs : List Nat) : Nat := bytesToNatLE bs.reverse

/-- Big-endian byte expansion of width `w2`. -/
def toBytesBE (w2 v : Nat) : List Nat := (toBytesLE w2 v).reverse

/-- The struct `EcdsaParams` of `circuit.rs`: the five foreign-field witnesses
of one slot; `msg_hash`, `r`, `s` live in the scalar field `Fq`, the
public-key coordinates `x`, `y` in the base field `Fp`. -/
structure EcdsaParams where
  msg_hash : Nat
  x : Nat
  y : Nat
  r : Nat
  s : Nat
  deriving DecidableEq, Repr

/-- `EcdsaParams::keygen`: the all-ones parameters used when the unpacked
payload is empty (key generation). -/
def EcdsaParams.keygen : EcdsaParams := { msg_hash := 1, x := 1, y := 1, r := 1, s := 1 }

/-- `EcdsaParams::parse`: split a payload into five 32-byte big-endian field
elements at offsets 0, 32, 64, 96 and 128; the `copy_from_slice` calls panic
when fewer than 160 bytes are available, modelled by `none`. -/
def EcdsaParams.parse (msg : List Nat) : Option EcdsaParams :=
  if 160 ≤ msg.length then
    some { msg_hash := bytesToNatBE (msg.take 32) % nOrd
         , x := bytesToNatBE ((msg.drop 32).take 32) % pMod
         , y := bytesToNatBE ((msg.drop 64).take 32) % pMod
         , r := bytesToNatBE ((msg.drop 96).take 32) % nOrd
         , s := bytesToNatBE ((msg.drop 128).take 32) % nOrd }
  else none

/-- The pass bit of one slot: the `ecdsa_verify_no_pubkey_check` outcome of
the slot's parameters. -/
def ecdsaVerifyParams (p : EcdsaParams) : Bool :=
  ecdsaVerify p.msg_hash p.r p.s (Pt.aff p.x p.y)

/-- The struct `Secp256r1Instance`: a raw (pubkey, signature, message)
triple of byte strings. -/
structure Secp256r1Instance where
  pubkey : List Nat
  sig : List Nat
  msg : List Nat
  deriving DecidableEq, Repr

/-- The `Default` instance of `Secp256r1Instance`: all three byte strings
empty. -/
def Secp256r1Instance.default : Secp256r1Instance :=
  { pubkey := [], sig := [], msg := [] }

/-- `Secp256r1Instance::payload`, parameterized by the external SHA-256
implementation (`sha2::Sha256`, which always returns 32 bytes): the message
digest, then the public key, then the signature; when the concatenation is a
bare 32-byte digest of an empty message, the canonical all-ones 160-byte
placeholder payload is returned instead. -/
def Secp256r1Instance.payload (hash : List Nat → List Nat)
    (inst : Secp256r1Instance) : List Nat :=
  let p := hash inst.msg ++ inst.pubkey ++ inst.sig
  if p.length = 32 ∧ inst.msg.length = 0 then List.replicate 160 1 else p

/-- `Secp256r1Circuit::new` over `F` and `N`: pack the payloads of the given
instances in order, extend with packed placeholder payloads up to `N` slots,
and set `min_pass` to `F::from(instances.len() as u64)`; the panic of
`assert!(instances.len() <= N)` is modelled by `none`. -/
def Secp256r1Circuit.new (hash : List Nat → List Nat) (N : Nat)
    (instances : List Secp256r1Instance) : Option (List Nat × Nat) :=
  if instances.length ≤ N then
    let out := instances.foldl (fun acc i => acc ++ pack (i.payload hash)) []
    let placeholder := Secp256r1Instance.default.payload hash
    let out2 := (List.range (N - instances.length)).foldl
      (fun acc _ => acc ++ pack placeholder) out
    some (out2, instances.length % 2 ^ 64)
  else none

/-! ## The pass-count constraint of `Secp256r1Config::assign`

The function `assign` loads each slot's parameters with `load_private` (fresh
advice cells whose honest values come from `read_unpack` and
`EcdsaParams::parse` over the instance column, but which no constraint ties
to that column, because `Region::instance_value` only reads a value), obtains
one pass bit per slot from the `ecdsa_verify_no_pubkey_check` sub-circuit,
sums the bits with the gate `sum` instruction, and finally calls
`assert_equal` between the sum and `QuantumCell::Witness(min_pass)`.  A
`Witness` quantum cell allocates a fresh advice cell carrying the value that
was read from row 0 of the `min_pass` instance column, so the only constraint
produced relates the pass-bit sum to that prover-assigned cell; the instance
column itself occurs in no constraint. -/

/-- The pass-bit sum of `assign` as a native-field value. -/
def sumPass (ps : List EcdsaParams) : Nat :=
  ((ps.map fun p => if ecdsaVerifyParams p then 1 else 0).sum) % frMod

/-- The constraints emitted by `assign`, over the advice value `w2` that the
prover assigns to the cell created by `QuantumCell::Witness(min_pass)`. -/
def assignConstraints (ps : List EcdsaParams) (w2 : Nat) : Prop :=
  sumPass ps = w2

/-- Satisfiability of the region built by `assign` against a public
`min_pass` value: the witness cell is existentially quantified because the
prover assigns it; the public value occurs in no constraint. -/
def assignSatisfiable (ps : List EcdsaParams) (_minPassPublic : Nat) : Prop :=
  ∃ w2, assignConstraints ps w2

/-- A one-slot payload whose triple fails verification: msg_hash 1, public key
the generator, r 0, s 1 as big-endian 32-byte fields. -/
def badPayload : List Nat :=
  (List.replicate 31 0 ++ [1]) ++ toBytesBE 32 gX ++ toBytesBE 32 gY ++
    List.replicate 32 0 ++ (List.replicate 31 0 ++ [1])

/-- The parameters parsed from `badPayload`. -/
def badParams : EcdsaParams := { msg_hash := 1, x := gX, y := gY, r := 0, s := 1 }

/-! ## The placeholder triples (`Secp256r1Instance::default` and
`ECDSAInput::default`) -/

/-- The value of 32 bytes `0x01`, read big-endian: every field of the parsed
all-ones placeholder payload. -/
def allOnes32 : Nat := bytesToNatBE (List.replicate 32 1)

/-- The slot parameters parsed from the all-ones placeholder payload. -/
def allOnesParams : EcdsaParams :=
  { msg_hash := allOnes32, x := allOnes32, y := allOnes32, r := allOnes32, s := allOnes32 }

/-- The struct `ECDSAInput` of `crates/p256-ecdsa/src/lib.rs`: five
foreign-field values, `r`, `s`, `msghash` in the scalar field, `x`, `y` in
the base field. -/
structure ECDSAInput where
  r : Nat
  s : Nat
  msghash : Nat
  x : Nat
  y : Nat
  deriving DecidableEq, Repr

/-- The `Default` instance of `ECDSAInput`: `r` is the generator x-coordinate
read into the scalar field (`Fq::from_bytes` succeeds because `gX < nOrd`),
`s = r + 1` in the scalar field, `msghash = 1`, and the public key is the
generator. -/
def ECDSAInput.default : ECDSAInput :=
  { r := gX, s := (gX + 1) % nOrd, msghash := 1, x := gX, y := gY }

/-! ### Claim C3: the instance vector built by the circuit constructor -/

theorem foldl_append_map {α : Type} (f : α → List Nat) :
    ∀ (l : List α) (acc : List Nat),
      l.foldl (fun acc2 i => acc2 ++ f i) acc = acc ++ (l.map f).flatten := by
  intro l
  induction l with
  | nil => intro acc; simp
  | cons a l ih =>
    intro acc
    simp [ih, List.append_assoc]

theorem foldl_append_const (k : Nat) (acc c : List Nat) :
    (List.range k).foldl (fun acc2 _ => acc2 ++ c) acc
      = acc ++ (List.replicate k c).flatten := by
  have h := foldl_append_map (fun _ : Nat => c) (List.range k) acc
  rw [h]
  congr 2
  rw [List.map_const', List.length_range]

/-- C3: for every list of at most `N` instances, `Secp256r1Circuit::new`
produces the packed payloads of the genuine instances in order, followed by
`N - len` packed copies of the canonical all-ones placeholder payload, and
sets the public `min_pass` to the number of genuine instances, so placeholder
slots never count toward `min_pass`. -/
theorem secp256r1Circuit_new_spec (hash : List Nat → List Nat)
    (hhash : (hash []).length = 32) (N : Nat) (instances : List Secp256r1Instance)
    (hN : instances.length ≤ N) (h64 : instances.length < 2 ^ 64) :
    Secp256r1Instance.default.payload hash = List.replicate 160 1 ∧
    Secp256r1Circuit.new hash N instances
      = some ((instances.map fun i => pack (i.payload hash)).flatten
          ++ (List.replicate (N - instances.length) (pack (List.replicate 160 1))).flatten,
        instances.length) := by
  have hph : Secp256r1Instance.default.payload hash = List.replicate 160 1 := by
    simp only [Secp256r1Instance.payload, Secp256r1Instance.default]
    rw [if_pos]
    constructor
    · simp [hhash]
    · rfl
  refine ⟨hph, ?_⟩
  simp only [Secp256r1Circuit.new, if_pos hN]
  rw [hph, foldl_append_map (fun i => pack (i.payload hash)) instances [],
    foldl_append_const]
  have h64x : instances.length % 2 ^ 64 = instances.length := Nat.mod_eq_of_lt h64
  simp [h64x]
  omega

/-- Witness for the circuit constructor at a two-slot circuit holding one
genuine instance, with the constant-zero 32-byte digest standing in for the
external SHA-256. -/
theorem secp256r1Circuit_new_spec_witness :
    Secp256r1Instance.default.payload (fun _ => List.replicate 32 0)
        = List.replicate 160 1 ∧
    Secp256r1Circuit.new (fun _ => List.replicate 32 0) 2
        [{ pubkey := [1], sig := [2], msg := [3] }]
      = some ((([{ pubkey := [1], sig := [2], msg := [3] }] : List Secp256r1Instance).map
            fun i => pack (i.payload fun _ => List.replicate 32 0)).flatten
          ++ (List.replicate
              (2 - ([{ pubkey := [1], sig := [2], msg := [3] }] : List Secp256r1Instance).length)
              (pack (List.replicate 160 1))).flatten,
        ([{ pubkey := [1], sig := [2], msg := [3] }] : List Secp256r1Instance).length) :=
  secp256r1Circuit_new_spec (fun _ => List.replicate 32 0) (by simp) 2
    [{ pubkey := [1], sig := [2], msg := [3] }] (by norm_num) (by norm_num)

/-! ### Claim C1: the pass-count sum and the `min_pass` public input -/

set_option maxRecDepth 100000 in
set_option maxHeartbeats 2000000 in
/-- C1 (code defect): `assign` derives one pass bit per slot and constrains
the pass-bit sum, but only against the prover-assigned advice cell created by
`QuantumCell::Witness(min_pass)`.  At a one-slot column packing `badPayload`,
which unpacks and parses to a triple failing ECDSA verification, the honest
pass-bit sum is 0, yet the region remains satisfiable with the public
`min_pass` value 1, because no constraint mentions the `min_pass` instance
column. -/
theorem assign_min_pass_not_bound :
    read_unpack (pack badPayload) 0 = some badPayload ∧
    EcdsaParams.parse badPayload = some badParams ∧
    ecdsaVerifyParams badParams = false ∧
    sumPass [badParams] = 0 ∧
    assignSatisfiable [badParams] 1 ∧
    sumPass [badParams] ≠ 1 := by
  refine ⟨?_, by decide, by decide, by decide, ⟨0, by simp only [assignConstraints]; decide⟩,
    by decide⟩
  have h := read_unpack_pack badPayload [] [] (by decide) (by decide)
  simpa using h

/-! ### Claim C4: the placeholder triples and the verification equation -/

set_option maxRecDepth 100000 in
set_option maxHeartbeats 2000000 in
/-- C4 counterexample: the all-ones placeholder payload of the batched
circuit parses to the triple with every field equal to the 32-byte value
`0x0101...01`, and that triple does not satisfy the ECDSA verification
equation, so the claim that both placeholder triples pass is false. -/
theorem placeholder_all_ones_fails :
    EcdsaParams.parse (List.replicate 160 1) = some allOnesParams ∧
    ecdsaVerifyParams allOnesParams = false := by
  constructor
  · decide
  · decide

/-! ## `ECDSAProver` and `ECDSAInput` (`crates/p256-ecdsa`) -/

/-- The outcome of a fallible Rust call: `Ok`, `Err`, or a panic (from
`assert!`, `assert_eq!` or `unwrap`). -/
inductive RustOutcome (α : Type) where
  | ok (a : α) : RustOutcome α
  | err (e : String) : RustOutcome α
  | panicked : RustOutcome α
  deriving DecidableEq, Repr

/-- `ECDSAInput::new`: four `assert_eq!` length checks panic on a wrong-length
field; then each 32-byte value is read big-endian by `Fq::from_bytes` or
`Fp::from_bytes`, which is `None` exactly when the value is not below the
field modulus, surfaced as `Err("Invalid input")`; the checks run in the
source order msghash, r, s, x, y. -/
def ECDSAInput.new (msghash r s x y : List Nat) : RustOutcome ECDSAInput :=
  if msghash.length ≠ 32 then .panicked
  else if r.length ≠ 32 then .panicked
  else if s.length ≠ 32 then .panicked
  else if x.length ≠ 32 then .panicked
  else if y.length ≠ 32 then .panicked
  else if bytesToNatBE msghash < nOrd then
    if bytesToNatBE r < nOrd then
      if bytesToNatBE s < nOrd then
        if bytesToNatBE x < pMod then
          if bytesToNatBE y < pMod then
            .ok { r := bytesToNatBE r, s := bytesToNatBE s, msghash := bytesToNatBE msghash,
                  x := bytesToNatBE x, y := bytesToNatBE y }
          else .err "Invalid input"
        else .err "Invalid input"
      else .err "Invalid input"
    else .err "Invalid input"
  else .err "Invalid input"

/-- `ECDSAInput::try_from_bytes`: a 64-byte signature splits into `r` and `s`,
a 65-byte uncompressed public key drops its leading `0x04` tag byte and splits
into `x` and `y`; wrong lengths are rejected with `Err` before `new` runs. -/
def ECDSAInput.try_from_bytes (msghash signature pubkey : List Nat) :
    RustOutcome ECDSAInput :=
  if signature.length ≠ 64 then .err "signature should be 64 bytes"
  else if pubkey.length ≠ 65 then .err "Pubkey should be uncompressed format"
  else ECDSAInput.new msghash (signature.take 32) (signature.drop 32)
    ((pubkey.drop 1).take 32) ((pubkey.drop 1).drop 32)

/-- `decompose_biguint` of `halo2_base`: little-endian base-`2 ^ bitLen` limb
decomposition into `numLimbs` limbs (exact for values below
`2 ^ (numLimbs * bitLen)`). -/
def decompose_biguint (v numLimbs bitLen : Nat) : List Nat :=
  (List.range numLimbs).map fun i => v / 2 ^ (bitLen * i) % 2 ^ bitLen

/-- `ECDSAInput::as_instances`: the 3-limb 88-bit decompositions of msghash,
r, s, x, y, concatenated in that order. -/
def ECDSAInput.as_instances (i : ECDSAInput) : List Nat :=
  decompose_biguint i.msghash 3 88 ++ decompose_biguint i.r 3 88 ++
    decompose_biguint i.s 3 88 ++ decompose_biguint i.x 3 88 ++
    decompose_biguint i.y 3 88

/-- The batch normalization at the top of `create_proof`:
`[input, vec![ECDSAInput::default(); 4]].concat()` truncated to 4 slots. -/
def batchPad (input : List ECDSAInput) : List ECDSAInput :=
  (input ++ List.replicate 4 ECDSAInput.default).take 4

/-- The public-input vector `create_proof` hands to the backend: the
concatenated `as_instances` of the four padded slots. -/
def proofInstances (input : List ECDSAInput) : List Nat :=
  ((batchPad input).map ECDSAInput.as_instances).flatten

/-- The external proving-system backends used by `create_proof`, abstracted:
whether `create_circuit` succeeds (the `?` operator), proof generation
(`gen_evm_proof_shplonk` / `gen_proof`), the EVM self-check (generate the
verifier contract, compile, deploy and call) and the native self-check
(`verify_proof` against the prover's own verifying key). -/
structure ProverEnv where
  circuitOk : Bool
  genProof : List ECDSAInput → List Nat → Bool → List Nat
  evmAccept : List Nat → List Nat → Bool
  nativeAccept : List Nat → List Nat → Bool

/-- `ECDSAProver::create_proof`: pad or truncate the inputs to 4 slots, build
the circuit, generate the proof on the chosen path, and, only when compiled
with `debug_assertions`, verify the proof locally on the same path and panic
(`assert!(accept)`) if verification fails; without debug assertions the proof
is returned as `Ok` unverified. -/
def createProof (env : ProverEnv) (debugAssertions : Bool)
    (input : List ECDSAInput) (evm : Bool) : RustOutcome (List Nat) :=
  let padded := batchPad input
  let instances := proofInstances input
  if env.circuitOk then
    let proof := env.genProof padded instances evm
    if debugAssertions then
      if (if evm then env.evmAccept proof instances else env.nativeAccept proof instances)
      then .ok proof
      else .panicked
    else .ok proof
  else .err "create_circuit failed"

/-! ### Claim C8: input validation -/

set_option maxRecDepth 4000 in
/-- C8 counterexample: a 31-byte msghash makes `ECDSAInput::new` (and hence
`try_from_bytes` with well-formed signature and pubkey) panic through
`assert_eq!`, instead of returning the `Err` the claim promises. -/
theorem ecdsa_input_wrong_length_panics :
    ECDSAInput.new (List.replicate 31 0) (List.replicate 32 0) (List.replicate 32 0)
        (List.replicate 32 0) (List.replicate 32 0) = RustOutcome.panicked ∧
    ECDSAInput.try_from_bytes (List.replicate 31 0) (List.replicate 64 0)
        (List.replicate 65 0) = RustOutcome.panicked := by
  constructor
  · decide
  · decide

/-- C8 amended: wrong-length signatures and public keys are rejected by
`try_from_bytes` with `Err` before any circuit work; for fields of the
correct length, `new` returns `Err` exactly when some field value is not a
valid field element and `Ok` otherwise; a wrong-length field (for example a
msghash that is not 32 bytes) instead panics through `assert_eq!`. -/
theorem ecdsa_input_validation_amended :
    (∀ mh sig pk : List Nat, sig.length ≠ 64 →
        ECDSAInput.try_from_bytes mh sig pk = .err "signature should be 64 bytes") ∧
    (∀ mh sig pk : List Nat, sig.length = 64 → pk.length ≠ 65 →
        ECDSAInput.try_from_bytes mh sig pk = .err "Pubkey should be uncompressed format") ∧
    (∀ mh r s x y : List Nat, mh.length = 32 → r.length = 32 → s.length = 32 →
        x.length = 32 → y.length = 32 →
        ECDSAInput.new mh r s x y =
          if bytesToNatBE mh < nOrd ∧ bytesToNatBE r < nOrd ∧ bytesToNatBE s < nOrd ∧
              bytesToNatBE x < pMod ∧ bytesToNatBE y < pMod
          then .ok { r := bytesToNatBE r, s := bytesToNatBE s, msghash := bytesToNatBE mh,
                     x := bytesToNatBE x, y := bytesToNatBE y }
          else .err "Invalid input") ∧
    (∀ mh r s x y : List Nat, mh.length ≠ 32 →
        ECDSAInput.new mh r s x y = .panicked) := by
  refine ⟨?_, ?_, ?_, ?_⟩
  · intro mh sig pk h
    simp [ECDSAInput.try_from_bytes, h]
  · intro mh sig pk hs h
    simp [ECDSAInput.try_from_bytes, hs, h]
  · intro mh r s x y hm hr hs hx hy
    simp only [ECDSAInput.new, hm, hr, hs, hx, hy]
    norm_num
    split_ifs <;> tauto
  · intro mh r s x y hm
    simp [ECDSAInput.new, hm]

/-- Witness for the amended validation theorem: a wrong-length signature, a
valid all-zero input, and a wrong-length msghash at concrete byte strings. -/
theorem ecdsa_input_validation_amended_witness :
    ECDSAInput.try_from_bytes [1] [2] [3] = .err "signature should be 64 bytes" ∧
    ECDSAInput.new (List.replicate 32 0) (List.replicate 32 0) (List.replicate 32 0)
        (List.replicate 32 0) (List.replicate 32 0) =
      (if bytesToNatBE (List.replicate 32 0) < nOrd ∧
          bytesToNatBE (List.replicate 32 0) < nOrd ∧
          bytesToNatBE (List.replicate 32 0) < nOrd ∧
          bytesToNatBE (List.replicate 32 0) < pMod ∧
          bytesToNatBE (List.replicate 32 0) < pMod
        then .ok { r := bytesToNatBE (List.replicate 32 0),
                   s := bytesToNatBE (List.replicate 32 0),
                   msghash := bytesToNatBE (List.replicate 32 0),
                   x := bytesToNatBE (List.replicate 32 0),
                   y := bytesToNatBE (List.replicate 32 0) }
        else .err "Invalid input") ∧
    ECDSAInput.new [9] (List.replicate 32 0) (List.replicate 32 0)
        (List.replicate 32 0) (List.replicate 32 0) = .panicked :=
  ⟨ecdsa_input_validation_amended.1 [1] [2] [3] (by decide),
    ecdsa_input_validation_amended.2.2.1 (List.replicate 32 0) (List.replicate 32 0)
      (List.replicate 32 0) (List.replicate 32 0) (List.replicate 32 0)
      (by decide) (by decide) (by decide) (by decide) (by decide),
    ecdsa_input_validation_amended.2.2.2 [9] (List.replicate 32 0) (List.replicate 32 0)
      (List.replicate 32 0) (List.replicate 32 0) (by decide)⟩

/-! ### Claim C9: the limb decomposition of `as_instances` -/

/-- C9: `as_instances` yields exactly 15 native-field elements, the little-
endian 3-limb 88-bit decompositions of msghash, r, s, x, y in that order;
each limb is below `2 ^ 88` and the three limbs of each field recombine as
`l0 + l1 * 2 ^ 88 + l2 * 2 ^ 176` to the original value. -/
theorem as_instances_spec (i : ECDSAInput) (hm : i.msghash < nOrd) (hr : i.r < nOrd)
    (hs : i.s < nOrd) (hx : i.x < pMod) (hy : i.y < pMod) :
    i.as_instances.length = 15 ∧
    i.as_instances = decompose_biguint i.msghash 3 88 ++ decompose_biguint i.r 3 88 ++
      decompose_biguint i.s 3 88 ++ decompose_biguint i.x 3 88 ++
      decompose_biguint i.y 3 88 ∧
    (∀ l ∈ i.as_instances, l < 2 ^ 88) ∧
    (∀ v : Nat, v < 2 ^ 264 →
      decompose_biguint v 3 88 = [v % 2 ^ 88, v / 2 ^ 88 % 2 ^ 88, v / 2 ^ 176 % 2 ^ 88] ∧
      v % 2 ^ 88 + (v / 2 ^ 88 % 2 ^ 88) * 2 ^ 88 + (v / 2 ^ 176 % 2 ^ 88) * 2 ^ 176 = v) ∧
    i.msghash < 2 ^ 264 ∧ i.r < 2 ^ 264 ∧ i.s < 2 ^ 264 ∧ i.x < 2 ^ 264 ∧ i.y < 2 ^ 264 := by
  have hexp : ∀ v : Nat,
      decompose_biguint v 3 88 = [v % 2 ^ 88, v / 2 ^ 88 % 2 ^ 88, v / 2 ^ 176 % 2 ^ 88] := by
    intro v
    simp [decompose_biguint, List.range_succ]
  have hmono : ∀ v : Nat, v < nOrd ∨ v < pMod → v < 2 ^ 264 := by
    intro v hv
    have h1 : nOrd < 2 ^ 264 := by norm_num [nOrd]
    have h2 : pMod < 2 ^ 264 := by norm_num [pMod]
    omega
  refine ⟨?_, rfl, ?_, ?_, hmono _ (Or.inl hm), hmono _ (Or.inl hr), hmono _ (Or.inl hs),
    hmono _ (Or.inr hx), hmono _ (Or.inr hy)⟩
  · simp [ECDSAInput.as_instances, decompose_biguint]
  · intro l hl
    simp only [ECDSAInput.as_instances, List.mem_append] at hl
    have hlimb : ∀ v : Nat, l ∈ decompose_biguint v 3 88 → l < 2 ^ 88 := by
      intro v hv
      simp only [decompose_biguint, List.mem_map] at hv
      obtain ⟨j, _, hj⟩ := hv
      rw [← hj]
      exact Nat.mod_lt _ (by norm_num)
    rcases hl with ((((h | h) | h) | h) | h) <;> exact hlimb _ h
  · intro v hv
    refine ⟨hexp v, ?_⟩
    omega

/-- Witness for the limb-decomposition theorem at the default placeholder
input. -/
theorem as_instances_spec_witness :
    ECDSAInput.default.as_instances.length = 15 ∧
    ECDSAInput.default.as_instances
      = decompose_biguint ECDSAInput.default.msghash 3 88 ++
        decompose_biguint ECDSAInput.default.r 3 88 ++
        decompose_biguint ECDSAInput.default.s 3 88 ++
        decompose_biguint ECDSAInput.default.x 3 88 ++
        decompose_biguint ECDSAInput.default.y 3 88 ∧
    (∀ l ∈ ECDSAInput.default.as_instances, l < 2 ^ 88) ∧
    (∀ v : Nat, v < 2 ^ 264 →
      decompose_biguint v 3 88 = [v % 2 ^ 88, v / 2 ^ 88 % 2 ^ 88, v / 2 ^ 176 % 2 ^ 88] ∧
      v % 2 ^ 88 + (v / 2 ^ 88 % 2 ^ 88) * 2 ^ 88 + (v / 2 ^ 176 % 2 ^ 88) * 2 ^ 176 = v) ∧
    ECDSAInput.default.msghash < 2 ^ 264 ∧ ECDSAInput.default.r < 2 ^ 264 ∧
    ECDSAInput.default.s < 2 ^ 264 ∧ ECDSAInput.default.x < 2 ^ 264 ∧
    ECDSAInput.default.y < 2 ^ 264 :=
  as_instances_spec ECDSAInput.default (by decide) (by decide) (by decide)
    (by decide) (by decide)

/-! ### Claim C10: batching in `create_proof` -/

/-- C10: `create_proof` always proves exactly 4 slots: the first
`min(len, 4)` caller inputs in order followed by default placeholders, extra
inputs past index 3 are discarded without an error (the call behaves exactly
as if only the first four inputs had been passed), and the public-input
vector is the concatenation of `as_instances` over exactly those 4 slots. -/
theorem create_proof_batching (env : ProverEnv) (dbg : Bool)
    (input : List ECDSAInput) (evm : Bool) :
    (batchPad input).length = 4 ∧
    batchPad input = input.take 4 ++ List.replicate (4 - input.length) ECDSAInput.default ∧
    proofInstances input
      = ((input.take 4 ++ List.replicate (4 - input.length) ECDSAInput.default).map
          ECDSAInput.as_instances).flatten ∧
    createProof env dbg input evm = createProof env dbg (input.take 4) evm := by
  have hpad : batchPad input
      = input.take 4 ++ List.replicate (4 - input.length) ECDSAInput.default := by
    have hmin : min (4 - input.length) 4 = 4 - input.length := by omega
    rw [batchPad, List.take_append_eq_append_take, List.take_replicate, hmin]
  have hlen : (batchPad input).length = 4 := by
    rw [hpad]
    simp only [List.length_append, List.length_take, List.length_replicate]
    omega
  have hsame : batchPad (input.take 4) = batchPad input := by
    have h1 : (input.take 4).take 4 = input.take 4 := by simp [List.take_take]
    have h2 : min (4 - (input.take 4).length) 4 = 4 - input.length := by
      simp only [List.length_take]
      omega
    rw [hpad, batchPad, List.take_append_eq_append_take, List.take_replicate, h1, h2]
  refine ⟨hlen, hpad, by rw [proofInstances, hpad], ?_⟩
  rw [createProof, createProof]
  simp only [proofInstances, hsame]

/-! ### Claim C6: self-verification of generated proofs -/

/-- A backend whose local verification always rejects. -/
def rejectingEnv : ProverEnv :=
  { circuitOk := true
  , genProof := fun _ _ _ => [7]
  , evmAccept := fun _ _ => false
  , nativeAccept := fun _ _ => false }

/-- A backend whose local verification always accepts. -/
def acceptingEnv : ProverEnv :=
  { circuitOk := true
  , genProof := fun _ _ _ => [7]
  , evmAccept := fun _ _ => true
  , nativeAccept := fun _ _ => true }

/-- C6 counterexample: without `debug_assertions` (a release build) the
self-verification block is compiled out: even against a backend whose local
verification always rejects, `create_proof` returns the proof as `Ok` on both
paths, so not every returned proof has been verified. -/
theorem create_proof_release_skips_verification :
    createProof rejectingEnv false [] false = RustOutcome.ok [7] ∧
    createProof rejectingEnv false [] true = RustOutcome.ok [7] ∧
    rejectingEnv.nativeAccept [7] (proofInstances []) = false ∧
    rejectingEnv.evmAccept [7] (proofInstances []) = false := by
  refine ⟨rfl, rfl, rfl, rfl⟩

/-- C6 amended: in builds with `debug_assertions` enabled, an `Ok` result of
`create_proof` is exactly the generated proof and it has passed the local
self-verification of the chosen path (EVM or native); a verification failure
panics instead of returning; in release builds the proof is returned
unverified. -/
theorem create_proof_self_verification (env : ProverEnv) (input : List ECDSAInput)
    (evm : Bool) (proof : List Nat)
    (h : createProof env true input evm = RustOutcome.ok proof) :
    proof = env.genProof (batchPad input) (proofInstances input) evm ∧
    (if evm then env.evmAccept proof (proofInstances input)
      else env.nativeAccept proof (proofInstances input)) = true := by
  rw [createProof] at h
  by_cases hc : env.circuitOk
  · simp only [hc, if_true] at h
    by_cases ha : (if evm then env.evmAccept (env.genProof (batchPad input)
        (proofInstances input) evm) (proofInstances input)
      else env.nativeAccept (env.genProof (batchPad input)
        (proofInstances input) evm) (proofInstances input)) = true
    · rw [if_pos ha] at h
      cases h
      exact ⟨rfl, ha⟩
    · rw [if_neg ha] at h
      cases h
  · simp only [hc, if_false] at h
    cases h

/-- Witness for the self-verification theorem: with an accepting backend and
debug assertions on, the returned proof is the generated one and passed the
native check. -/
theorem create_proof_self_verification_witness :
    [7] = acceptingEnv.genProof (batchPad []) (proofInstances []) false ∧
    (if false then acceptingEnv.evmAccept [7] (proofInstances [])
      else acceptingEnv.nativeAccept [7] (proofInstances [])) = true :=
  create_proof_self_verification acceptingEnv [] false [7] rfl

/-! ## Digest front-end (`circuits/src/base64.rs`)

The ECDSA region of `Base64Circuit::synthesize` digests the hardcoded
`qe_report` bytes with the dynamic SHA-256 sub-circuit, reduces the 32 output
byte cells to one native-field element with the big-endian positional weights
`2 ^ 248, 2 ^ 240, ..., 2 ^ 0` (`inner_product_simple_with_assignments`), and
then loads the scalar `m` for `ecdsa_verify_no_pubkey_check` with
`fq_chip.load_private` applied to `fe_to_bigint(value_to_option(msghash.value()))`
which is the out-of-circuit *value* of the inner-product cell: the limbs of
`m` are fresh range-checked advice cells, and no constraint relates them to
the inner-product cell.  The hardcoded `r`, `s`, public key and expected
digest below are the little-endian byte constants of the source. -/

/-- The hardcoded `qe_report` byte vector digested in the circuit. -/
def qeReport : List Nat := [
  8, 9, 14, 13, 255, 255, 1, 0, 0, 0, 0, 0, 0, 0, 0, 0,
  0, 0, 0, 0, 0, 0, 0, 0, 0, 0, 0, 0, 0, 0, 0, 0,
  0, 0, 0, 0, 0, 0, 0, 0, 0, 0, 0, 0, 0, 0, 0, 0,
  21, 0, 0, 0, 0, 0, 0, 0, 231, 0, 0, 0, 0, 0, 0, 0,
  206, 29, 168, 154, 193, 245, 74, 128, 114, 87, 196, 229, 124, 120, 20, 12,
  188, 102, 82, 212, 213, 135, 214, 15, 5, 131, 18, 90, 39, 146, 190, 112,
  0, 0, 0, 0, 0, 0, 0, 0, 0, 0, 0, 0, 0, 0, 0, 0,
  0, 0, 0, 0, 0, 0, 0, 0, 0, 0, 0, 0, 0, 0, 0, 0,
  140, 79, 87, 117, 215, 150, 80, 62, 150, 19, 127, 119, 198, 138, 130, 154,
  0, 86, 172, 141, 237, 112, 20, 11, 8, 27, 9, 68, 144, 197, 123, 255,
  0, 0, 0, 0, 0, 0, 0, 0, 0, 0, 0, 0, 0, 0, 0, 0,
  0, 0, 0, 0, 0, 0, 0, 0, 0, 0, 0, 0, 0, 0, 0, 0,
  0, 0, 0, 0, 0, 0, 0, 0, 0, 0, 0, 0, 0, 0, 0, 0,
  0, 0, 0, 0, 0, 0, 0, 0, 0, 0, 0, 0, 0, 0, 0, 0,
  0, 0, 0, 0, 0, 0, 0, 0, 0, 0, 0, 0, 0, 0, 0, 0,
  0, 0, 0, 0, 0, 0, 0, 0, 0, 0, 0, 0, 0, 0, 0, 0,
  1, 0, 9, 0, 0, 0, 0, 0, 0, 0, 0, 0, 0, 0, 0, 0,
  0, 0, 0, 0, 0, 0, 0, 0, 0, 0, 0, 0, 0, 0, 0, 0,
  0, 0, 0, 0, 0, 0, 0, 0, 0, 0, 0, 0, 0, 0, 0, 0,
  0, 0, 0, 0, 0, 0, 0, 0, 0, 0, 0, 0, 0, 0, 0, 0,
  9, 188, 124, 79, 211, 205, 227, 97, 238, 49, 224, 32, 91, 56, 220, 72,
  241, 138, 165, 234, 97, 86, 191, 147, 42, 38, 34, 143, 92, 197, 56, 135,
  0, 0, 0, 0, 0, 0, 0, 0, 0, 0, 0, 0, 0, 0, 0, 0,
  0, 0, 0, 0, 0, 0, 0, 0, 0, 0, 0, 0, 0, 0, 0, 0]

/-- The hardcoded expected digest scalar `msghash_tmp` (little-endian bytes in
the source). -/
def qeMsghash : Nat := bytesToNatLE [213, 190, 114, 4, 209, 8, 253, 177, 115, 233, 78,
  182, 125, 86, 180, 111, 229, 1, 180, 87, 87, 165, 247, 28, 227, 115, 150, 79, 183,
  175, 176, 217]

/-- The hardcoded signature component `r_point`. -/
def qeR : Nat := bytesToNatLE [85, 11, 117, 70, 141, 121, 224, 181, 11, 22, 189, 36,
  53, 164, 196, 215, 128, 241, 3, 3, 78, 217, 25, 34, 39, 31, 169, 113, 138, 231, 85,
  42]

/-- The hardcoded signature component `s_point`. -/
def qeS : Nat := bytesToNatLE [41, 142, 197, 233, 154, 110, 18, 217, 14, 60, 22, 79,
  26, 131, 37, 102, 35, 30, 143, 208, 8, 164, 25, 160, 36, 86, 192, 101, 211, 255,
  243, 6]

/-- The hardcoded public-key x-coordinate `pubkey_x_base`. -/
def qePubX : Nat := bytesToNatLE [25, 122, 102, 10, 107, 161, 208, 37, 40, 103, 230,
  212, 217, 201, 219, 37, 243, 21, 148, 231, 81, 156, 37, 255, 173, 53, 17, 65, 57,
  1, 131, 41]

/-- The hardcoded public-key y-coordinate `pubkey_y_base`. -/
def qePubY : Nat := bytesToNatLE [61, 92, 233, 152, 97, 160, 133, 116, 50, 175, 252,
  245, 58, 47, 19, 241, 229, 38, 133, 160, 239, 55, 223, 203, 39, 166, 219, 23, 138,
  241, 140, 84]

/-- The in-circuit reduction of the 32 digest bytes with big-endian positional
weights `2 ^ 248, 2 ^ 240, ..., 2 ^ 0` into one native-field element. -/
def digestLinComb (d : List Nat) : Nat :=
  (((List.range 32).map fun i => 2 ^ (248 - 8 * i) * d.getD i 0).sum) % frMod

/-- The constraints of the ECDSA region of `Base64Circuit::synthesize` over
the advice the prover assigns: the digest byte cells `d` (fixed by the
SHA-256 sub-circuit to the digest of the message), the inner-product cell `h`
(fixed by the flex gate to the weighted byte sum), and the value `mVal`
carried by the scalar limbs loaded by `load_private`, which only range checks
bind (three 88-bit limbs); the `ecdsa_verify_no_pubkey_check` bit over
(`mVal`, `qeR`, `qeS`, the hardcoded public key) is asserted to be the
constant 1.  No constraint relates `h` to `mVal`. -/
def base64Constraints (sha : List Nat → List Nat) (msg : List Nat)
    (d : List Nat) (h : Nat) (mVal : Nat) : Prop :=
  d = sha msg ∧
  h = digestLinComb d ∧
  mVal < 2 ^ 264 ∧
  ecdsaVerify mVal qeR qeS (Pt.aff qePubX qePubY) = true

/-- Satisfiability of the region for a message and a held scalar value: the
digest cells and the inner-product cell are existentially quantified because
the prover assigns them. -/
def base64Satisfiable (sha : List Nat → List Nat) (msg : List Nat) (mVal : Nat) : Prop :=
  ∃ d h, base64Constraints sha msg d h mVal

/-- `qe_report` with its first byte changed from 8 to 9. -/
def qeReportFlipped : List Nat := 9 :: qeReport.drop 1

set_option maxRecDepth 100000 in
set_option maxHeartbeats 16000000 in
/-- The hardcoded report signature satisfies the ECDSA equation at the
hardcoded digest scalar (one full in-model signature verification). -/
theorem qe_signature_verifies :
    ecdsaVerify qeMsghash qeR qeS (Pt.aff qePubX qePubY) = true := by
  decide

set_option maxRecDepth 100000 in
set_option maxHeartbeats 4000000 in
/-- C5 (code defect): the scalar consumed by the ECDSA sub-circuit is not
constrained to the digest: for every SHA-256 function and every pre-digest
message, in particular the hardcoded report with its first byte flipped from
8 to 9, the region remains satisfiable with the scalar limbs held at the
hardcoded digest value, because `load_private` copies only the out-of-circuit
value of the inner-product cell.  Under the claim the flipped message with
the held scalar would be unsatisfiable. -/
theorem base64_digest_not_bound :
    (∀ (sha : List Nat → List Nat) (msg : List Nat), base64Satisfiable sha msg qeMsghash) ∧
    qeReportFlipped.length = qeReport.length ∧
    qeReportFlipped ≠ qeReport ∧
    qeReportFlipped.getD 0 0 = 9 ∧ qeReport.getD 0 0 = 8 := by
  refine ⟨?_, by decide, by decide, by decide, by decide⟩
  intro sha msg
  exact ⟨sha msg, digestLinComb (sha msg), rfl, rfl, by decide, qe_signature_verifies⟩

set_option maxRecDepth 100000 in
set_option maxHeartbeats 16000000 in
/-- C4 amended: the placeholder triple of the p256-ecdsa prover,
`ECDSAInput::default()` (r = the generator x-coordinate, s = r + 1,
msghash = 1, pubkey = the generator), satisfies the ECDSA verification
equation, while the batched circuit's all-ones placeholder triple does not. -/
theorem ecdsa_default_placeholder_passes :
    ecdsaVerify ECDSAInput.default.msghash ECDSAInput.default.r ECDSAInput.default.s
        (Pt.aff ECDSAInput.default.x ECDSAInput.default.y) = true ∧
    ecdsaVerifyParams allOnesParams = false := by
  constructor
  · decide
  · decide

end ZkDcap



